import Mathlib

/-
  Verification development for the transferSkinCluster weight codec
  (plug-ins/transferSkinCluster.py).

  The Python plug-in is shallowly embedded:
  * floating-point weights are modelled as rationals (the file format prints a
    float with Python's shortest round-tripping repr and reads it back with
    eval, so serialisation of a single weight is the identity on values);
  * the record-emission loop of writeWeights (lines 190-198) and the
    range-merging loop of readWeights (lines 334-392) are modelled as pure
    functions over lists of records;
  * Maya scene collaborators (select, skinCluster creation, rename, setAttr,
    skinPercent, executeCommand) are modelled as an effect trace so that the
    ordering of mutations relative to the failure checks can be stated.
-/

/-- A weight record, the parsed form of a record line
`[vertexIndex, influenceName, influenceIndex, weight]`
(writeWeights line 194: `lineArray = [geoIter.index(), infls[j], j, value[j]]`). -/
structure Record where
  vertex : Nat
  inflName : String
  infl : Nat
  weight : ℚ
  deriving DecidableEq, Repr

/-- One `setAttr -s <setCount> ".weightList[<vertex>].weights[<inflStart>:<inflEnd>]" <weights>`
command issued by readWeights (lines 381-386).  When `inflStart = inflEnd` the
code prints the single-index form `weights[<inflStart>]`; both forms carry the
same data, so a single structure represents either. -/
structure RangeCommand where
  vertex : Nat
  inflStart : Int
  inflEnd : Int
  weights : List ℚ
  setCount : Nat
  deriving DecidableEq, Repr

/-- Records emitted by writeWeights for one vertex `v` (inner loop, lines
192-195): for each influence index `j < I` in ascending order, a record is
appended iff `value[j] > 0`. -/
def recsFor (I : Nat) (nm : Nat → String) (w : Nat → Nat → ℚ) (v : Nat) : List Record :=
  (List.range I).filterMap fun j =>
    if 0 < w v j then some ⟨v, nm j, j, w v j⟩ else none

/-- The full record stream of writeWeights (outer while-loop over the geometry
iterator, lines 190-196): vertices are visited in ascending index order
`0, 1, ..., V-1`. -/
def writeRecords (V I : Nat) (nm : Nat → String) (w : Nat → Nat → ℚ) : List Record :=
  (List.range V).flatMap (recsFor I nm w)

/-- Mutable state of the readWeights merging loop
(initialisation at lines 258-262). `buf` models the space-separated
`weightString`, `out` the commands already issued via `executeCommand`. -/
structure DState where
  buf : List ℚ
  inflStart : Int
  inflEnd : Int
  setCount : Nat
  writeData : Bool
  out : List RangeCommand
  deriving DecidableEq, Repr

/-- Initial decoder state (lines 258-262). -/
def initState : DState := ⟨[], -1, -1, 0, false, []⟩

/-- The zero weights appended by the gap-filling loop
`for x in range(inflEnd + 1, weights[2]): weightString += "0 "` (lines 361-363). -/
def gapZeros (inflEnd : Int) (j : Nat) : List ℚ :=
  List.replicate ((j - (inflEnd + 1)).toNat) 0

/-- Intermediate run accumulator produced by lines 351-364 of readWeights for
the current record's influence index `j`. -/
structure RunAcc where
  start : Int
  stop : Int
  buf : List ℚ
  cnt : Nat
  deriving DecidableEq, Repr

/-- Lines 351-364: start a new run, extend a consecutive run, or zero-fill the
gap up to the current influence index. -/
def runUpdate (s : DState) (j : Nat) : RunAcc :=
  if s.inflStart = -1 then
    ⟨(j : Int), (j : Int), s.buf, s.setCount⟩
  else if s.inflEnd = (j : Int) - 1 then
    ⟨s.inflStart, (j : Int), s.buf, s.setCount⟩
  else
    ⟨s.inflStart, (j : Int), s.buf ++ gapZeros s.inflEnd j,
      s.setCount + ((j : Int) - (s.inflEnd + 1)).toNat⟩

/-- One iteration of the readWeights loop body (lines 334-392) on the current
record `w` with lookahead record `wNext`; `isLast` is true on the final line,
where the code sets `weightsNext = weights` and `writeData = 1` (lines 340-342). -/
def stepRecord (s : DState) (w wNext : Record) (isLast : Bool) : DState :=
  let wd0 := s.writeData || isLast
  let u := runUpdate s w.infl
  let buf := u.buf ++ [w.weight]
  let cnt := u.cnt + 1
  let wd := wd0 || (w.vertex != wNext.vertex)
  if wd then
    ⟨[], -1, -1, 0, false,
      s.out ++ [⟨w.vertex, u.start, u.stop, buf, cnt⟩]⟩
  else
    ⟨buf, u.start, u.stop, cnt, wd, s.out⟩

/-- The readWeights loop `for i in range(3, len(weightLines)-1)` over the
record lines, with its one-line lookahead. -/
def runDecode (s : DState) (rs : List Record) : DState :=
  match rs with
  | [] => s
  | w :: rest =>
    match rest with
    | [] => stepRecord s w w true
    | wN :: _ => runDecode (stepRecord s w wN false) rest

/-- The RangeCommands issued by the readWeights merging loop for a record
stream (all record lines well formed). -/
def decode (rs : List Record) : List RangeCommand :=
  (runDecode initState rs).out

/-- The readWeights loop on raw record lines, where `none` stands for a line
on which `eval` raises.  The boolean result is `false` when the loop aborts
with an exception; the state's `out` holds the commands already executed at
that point.  Note the lookahead `eval(weightLines[i+1])` (line 339) raises
while processing the preceding line. -/
def runDecodeRaw (s : DState) (ls : List (Option Record)) : DState × Bool :=
  match ls with
  | [] => (s, true)
  | none :: _ => (s, false)
  | some w :: rest =>
    match rest with
    | [] => (stepRecord s w w true, true)
    | none :: _ => (s, false)
    | some wN :: _ => runDecodeRaw (stepRecord s w wN false) rest

/-- Strict (vertex, influence) ordering of records, the order in which
writeWeights emits them. -/
def recLt (a b : Record) : Prop :=
  a.vertex < b.vertex ∨ (a.vertex = b.vertex ∧ a.infl < b.infl)

instance : DecidableRel recLt := fun a b =>
  inferInstanceAs (Decidable (a.vertex < b.vertex ∨ (a.vertex = b.vertex ∧ a.infl < b.infl)))

/-- A record stream is well formed when consecutive records are strictly
ascending by (vertex, influence) (spec section 4.2, step 4). -/
def wellFormed (rs : List Record) : Prop :=
  List.Chain' recLt rs

/-- Executable check of `wellFormed`. -/
def wellFormedB (rs : List Record) : Bool :=
  match rs with
  | [] => true
  | a :: rest =>
    match rest with
    | [] => true
    | b :: _ => decide (recLt a b) && wellFormedB rest

instance : DecidablePred wellFormed := fun rs =>
  decidable_of_iff (wellFormedB rs = true)
    (by
      induction rs with
      | nil => simp [wellFormedB, wellFormed]
      | cons a rest ih =>
        cases rest with
        | nil => simp [wellFormedB, wellFormed]
        | cons b t =>
          rw [show wellFormedB (a :: b :: t) = (decide (recLt a b) && wellFormedB (b :: t))
            from rfl]
          rw [Bool.and_eq_true, decide_eq_true_eq]
          rw [show wellFormed (a :: b :: t) ↔ recLt a b ∧ wellFormed (b :: t)
            from List.chain'_cons]
          exact and_congr_right fun _ => ih)

/-- The header-line token transform of readWeights for reversed influence
order (lines 279-283): reverse the whole token list, drop the first element of
the reversal (the stored target), and append the target name
`shape = items[len(items)-1]` (line 269). -/
def reverseHeaderTokens (items : List String) : List String :=
  (items.reverse.drop 1) ++ [items.getLastD ""]

/-- The `objects` list readWeights passes to `cmds.select` (lines 267-283):
the header line split on spaces, reversed when `reverseOrder == 1`. -/
def headerObjects (line : String) (reverseOrder : Bool) : List String :=
  let items := line.splitOn " "
  if reverseOrder then reverseHeaderTokens items else items

/-- A triple (vertex, influence, weight) covered by one of the emitted
RangeCommands: some command for this vertex assigns weight `q` at offset
`j - inflStart` of its weight buffer. -/
def Covers (cmds : List RangeCommand) (v j : Nat) (q : ℚ) : Prop :=
  ∃ c ∈ cmds, c.vertex = v ∧ ∃ k : Nat, c.weights.get? k = some q ∧ (j : Int) = c.inflStart + k

/-- Accumulation of an open run over further records of the same vertex
(lines 354-369, with the collapsed observation that the consecutive case
`inflEnd == weights[2]-1` appends no zeros): each record extends the run end
to its influence index, zero-filling the gap. -/
def accRun (e : Int) (b : List ℚ) : List Record → Int × List ℚ
  | [] => (e, b)
  | w :: t => accRun (w.infl : Int) (b ++ gapZeros e w.infl ++ [w.weight]) t

/-- The single RangeCommand the merging loop flushes for a maximal group of
records `w :: t` sharing one vertex, starting from a fresh run. -/
def groupCmd (w : Record) (t : List Record) : RangeCommand :=
  ⟨w.vertex, (w.infl : Int), (accRun (w.infl : Int) [w.weight] t).1,
    (accRun (w.infl : Int) [w.weight] t).2,
    (accRun (w.infl : Int) [w.weight] t).2.length⟩

/-- The RangeCommand the decoder flushes for vertex `v` of an encoded weight
table, if `v` has any positive weight. -/
def cmdFor (I : Nat) (nm : Nat → String) (w : Nat → Nat → ℚ) (v : Nat) :
    Option RangeCommand :=
  match recsFor I nm w v with
  | [] => none
  | r :: t => some (groupCmd r t)

/-- The vertex of each flush of the merging loop: a flush happens exactly when
the lookahead record has a different vertex, or at the last record. -/
def vtxRuns : List Nat → List Nat
  | [] => []
  | v :: rest =>
    match rest with
    | [] => [v]
    | vN :: _ => (if v = vN then ([] : List Nat) else [v]) ++ vtxRuns rest

-- --------------------------------------------------------------------------
-- effect-trace model of readWeights (lines 245-399)
-- --------------------------------------------------------------------------

/-- Collaborator operations readWeights performs on the Maya scene, in
program order.  `select` is the only non-mutating one (selection is
transient); every other effect mutates the destination. -/
inductive Effect where
  | select (objs : List String)
  | createBinding (params : String)
  | rename (toName : String)
  | setNormalize (v : Int)
  | prune
  | presize (n : Nat)
  | applyRange (c : RangeCommand)
  deriving DecidableEq, Repr

/-- Whether an effect mutates the destination scene. -/
def Effect.mutating : Effect → Bool
  | .select _ => false
  | _ => true

/-- Outcome of a readWeights call: `ok` is `return 1`; `errFile` and
`errAlreadyBound` are `displayError` followed by `return -1`
(lines 250-251 and 296-297); `silentReturn` is the bare `return()` of the
selection except-branch (lines 288-290), which reports nothing; `exn` is an
uncaught exception escaping from `eval` on a malformed line. -/
inductive RWResult where
  | ok
  | errFile
  | errAlreadyBound
  | silentReturn
  | exn
  deriving DecidableEq, Repr

/-- The weight file as split into lines (lines 253-254): header line, skin
cluster name line, parameter line, then the record lines, where `none` marks
a record line on which `eval` raises. -/
structure ParsedFile where
  headerLine : String
  clusterName : String
  paramsLine : String
  records : List (Option Record)
  deriving DecidableEq, Repr

/-- Effect-trace model of readWeights.  Scene-dependent outcomes are oracles:
`openOk` (file open, line 248), `selectOk` (the `cmds.select` on the stored
names, line 287), `alreadyBound` (a skinCluster upstream of the shape,
lines 293-295), and `nwOrig` (the `.nw` value read back from the created
cluster, line 312).  Effects are listed in program order; commands flushed
before an exception remain in the trace (the loop applies as it goes).  With
no record lines at all, the presizing `eval(weightLines[len-2])` (line 320)
hits the parameter line and raises, which the model folds into the same
`exn` outcome as a malformed last record line. -/
def readWeightsModel (f : ParsedFile) (reverseOrder : Bool)
    (openOk selectOk alreadyBound : Bool) (nwOrig : Int) :
    RWResult × List Effect :=
  if openOk = false then (.errFile, [])
  else
    let objects := headerObjects f.headerLine reverseOrder
    if selectOk = false then (.silentReturn, [])
    else if alreadyBound then (.errAlreadyBound, [.select objects])
    else
      let effs : List Effect :=
        [.select objects, .createBinding f.paramsLine, .rename f.clusterName,
          .setNormalize 0, .prune]
      match f.records.getLast? with
      | some (some r) =>
          let effs := effs ++ [.select [f.clusterName], .presize (r.vertex + 1)]
          let p := runDecodeRaw initState f.records
          let effs := effs ++ p.1.out.map .applyRange
          if p.2 then (.ok, effs ++ [.setNormalize nwOrig]) else (.exn, effs)
      | _ => (.exn, effs)

-- --------------------------------------------------------------------------
-- exclusive per-influence export (writeWeights, lines 208-236)
-- --------------------------------------------------------------------------

/-- The geometry-iterator loop of the exclusive export (lines 224-228): one
line `"<vertexIndex> <weight>"` is appended per visited vertex,
unconditionally. -/
def geoLoop (w : Nat → Nat → ℚ) (j : Nat) : Nat → Nat → List (Nat × ℚ)
  | _, 0 => []
  | i, n + 1 => (i, w i j) :: geoLoop w j (i + 1) n

/-- Lines of the per-influence file for influence index `j` (lines 223-230),
with `w` the weight table after `forceNormalizeWeights` (line 209). -/
def exclusiveLines (V : Nat) (w : Nat → Nat → ℚ) (j : Nat) : List (Nat × ℚ) :=
  geoLoop w j 0 V

/-- The per-influence file path `"{fileName}/{skinClusterNode}/{infl}.bsw"`
(lines 210 and 219). -/
def exclusivePath (fileName node infl : String) : String :=
  fileName ++ "/" ++ node ++ "/" ++ infl ++ ".bsw"

/-- The whole exclusive export (outer loop over influences, lines 218-236):
one file per influence, named after the influence inside a directory named
after the skinCluster node. -/
def exclusiveExport (V I : Nat) (fileName node : String) (nm : Nat → String)
    (w : Nat → Nat → ℚ) : List (String × List (Nat × ℚ)) :=
  (List.range I).map fun j => (exclusivePath fileName node (nm j), exclusiveLines V w j)

-- --------------------------------------------------------------------------
-- command argument validation (doIt, lines 64-111)
-- --------------------------------------------------------------------------

/-- The parsed flag set of one command invocation.  Numeric flag values are
doubles in the source (`flagArgumentDouble`), modelled as rationals. -/
structure CmdArgs where
  helpSet : Bool
  modeSet : Bool
  modeVal : ℚ
  orderSet : Bool
  orderVal : ℚ
  exclusiveSet : Bool
  exclusiveVal : ℚ
  fileSet : Bool
  fileVal : String

/-- What a doIt invocation does after argument validation. -/
inductive DoItAction where
  | showHelp
  | reportError
  | runWrite
  | runRead
  deriving DecidableEq, Repr

/-- Control flow of doIt (lines 64-105): help short-circuits; a missing file
flag, an empty file name, or a mode outside [0,1] each displayError and
return; otherwise mode 0 calls writeWeights and any other mode calls
readWeights. -/
def doItModel (a : CmdArgs) : DoItAction :=
  if a.helpSet then .showHelp
  else if a.fileSet = false then .reportError
  else if a.fileVal = "" then .reportError
  else
    let modeArg := if a.modeSet then a.modeVal else 0
    if modeArg < 0 ∨ 1 < modeArg then .reportError
    else if modeArg = 0 then .runWrite
    else .runRead

/-- The record stream of the merge-correctness example of the spec:
vertex 5 at influence indices 0, 1, 3 with weights 0.2, 0.3, 0.5. -/
def gapExample : List Record :=
  [⟨5, "joint1", 0, mkRat 1 5⟩, ⟨5, "joint2", 1, mkRat 3 10⟩, ⟨5, "joint4", 3, mkRat 1 2⟩]

/-- The influence indices of vertex `v` with strictly positive weight, in
ascending order — exactly the indices for which writeWeights emits a record. -/
def posIdx (I : Nat) (w : Nat → Nat → ℚ) (v : Nat) : List Nat :=
  (List.range I).filter fun j => decide (0 < w v j)

/-- A record stream that is not strictly ascending: vertex 0 lists influence
index 1 before influence index 0. -/
def outOfOrderExample : List Record :=
  [⟨0, "joint2", 1, mkRat 1 2⟩, ⟨0, "joint1", 0, mkRat 1 2⟩]

/-- A parsed weight file whose third record line is malformed (`eval` raises
on it); the records before it span two complete vertex groups. -/
def partialFile : ParsedFile :=
  ⟨"joint1 meshShape", "skinCluster1", "-nw 1 -mi 4 -dr 4.0",
    [some ⟨0, "joint1", 0, mkRat 1 2⟩, some ⟨1, "joint1", 0, mkRat 1 2⟩, none,
      some ⟨2, "joint1", 0, mkRat 1 2⟩]⟩

/-- A well-formed parsed weight file used to exercise the silent return of the
selection failure path. -/
def mismatchFile : ParsedFile :=
  ⟨"joint1 meshShape", "skinCluster1", "-nw 1 -mi 4 -dr 4.0",
    [some ⟨0, "joint1", 0, 1⟩]⟩

/-- An invocation with the help flag set and no file flag. -/
def helpInvocation : CmdArgs :=
  ⟨true, false, 0, false, 0, false, 0, false, ""⟩

/-- An invocation without the help flag and with the file flag absent. -/
def missingFileInvocation : CmdArgs :=
  ⟨false, false, 0, false, 0, false, 0, false, ""⟩

-- ==========================================================================
-- theorems
-- ==========================================================================

-- sanity examples (merging, small)
example : decode [⟨5, "J", 0, mkRat 1 5⟩, ⟨5, "J", 1, mkRat 3 10⟩, ⟨5, "J", 3, mkRat 1 2⟩] =
    [⟨5, 0, 3, [mkRat 1 5, mkRat 3 10, 0, mkRat 1 2], 4⟩] := by decide

example : decode [⟨0, "A", 0, mkRat 3 5⟩, ⟨0, "B", 1, mkRat 2 5⟩, ⟨1, "B", 1, 1⟩] =
    [⟨0, 0, 1, [mkRat 3 5, mkRat 2 5], 2⟩, ⟨1, 1, 1, [1], 1⟩] := by decide

example : writeRecords 2 2 (fun j => if j = 0 then "J1" else "J2")
    (fun v j => if v = 0 then (if j = 0 then mkRat 3 5 else mkRat 2 5)
      else (if j = 1 then 1 else 0)) =
    [⟨0, "J1", 0, mkRat 3 5⟩, ⟨0, "J2", 1, mkRat 2 5⟩, ⟨1, "J2", 1, 1⟩] := by decide

-- --------------------------------------------------------------------------
-- equations and step lemmas for the merging loop
-- --------------------------------------------------------------------------

@[simp] theorem runDecode_nil (s : DState) : runDecode s [] = s := rfl

theorem runDecode_single (s : DState) (w : Record) :
    runDecode s [w] = stepRecord s w w true := rfl

theorem runDecode_cons_cons (s : DState) (w wN : Record) (t : List Record) :
    runDecode s (w :: wN :: t) = runDecode (stepRecord s w wN false) (wN :: t) := rfl

theorem runUpdate_fresh (s : DState) (j : Nat) (h : s.inflStart = -1) :
    runUpdate s j = ⟨(j : Int), (j : Int), s.buf, s.setCount⟩ := by
  unfold runUpdate
  rw [if_pos h]

theorem runUpdate_open (s : DState) (j : Nat) (h : ¬s.inflStart = -1) :
    runUpdate s j =
      ⟨s.inflStart, (j : Int), s.buf ++ gapZeros s.inflEnd j,
        s.setCount + ((j : Int) - (s.inflEnd + 1)).toNat⟩ := by
  unfold runUpdate
  rw [if_neg h]
  split
  · rename_i he
    have h0 : ((j : Int) - (s.inflEnd + 1)).toNat = 0 := by omega
    simp [gapZeros, h0]
  · rfl

theorem stepRecord_flush (s : DState) (w wN : Record) (isLast : Bool)
    (h : s.writeData = false) (hc : isLast = true ∨ w.vertex ≠ wN.vertex) :
    stepRecord s w wN isLast =
      ⟨[], -1, -1, 0, false,
        s.out ++ [⟨w.vertex, (runUpdate s w.infl).start, (runUpdate s w.infl).stop,
          (runUpdate s w.infl).buf ++ [w.weight], (runUpdate s w.infl).cnt + 1⟩]⟩ := by
  unfold stepRecord
  rcases hc with hl | hv
  · subst hl
    simp [h]
  · simp [h, hv]

theorem stepRecord_noflush (s : DState) (w wN : Record)
    (h : s.writeData = false) (hv : w.vertex = wN.vertex) :
    stepRecord s w wN false =
      ⟨(runUpdate s w.infl).buf ++ [w.weight], (runUpdate s w.infl).start,
        (runUpdate s w.infl).stop, (runUpdate s w.infl).cnt + 1, false, s.out⟩ := by
  unfold stepRecord
  simp [h, hv]

-- --------------------------------------------------------------------------
-- one flush per vertex group
-- --------------------------------------------------------------------------

theorem runDecode_out_map (rs : List Record) : ∀ s : DState, s.writeData = false →
    (runDecode s rs).out.map (·.vertex) =
      s.out.map (·.vertex) ++ vtxRuns (rs.map (·.vertex)) := by
  induction rs with
  | nil => intro s _; simp [vtxRuns]
  | cons w rest ih =>
    intro s h
    cases rest with
    | nil =>
      rw [runDecode_single, stepRecord_flush s w w true h (Or.inl rfl)]
      simp [vtxRuns]
    | cons wN t =>
      rw [runDecode_cons_cons]
      by_cases hv : w.vertex = wN.vertex
      · rw [stepRecord_noflush s w wN h hv, ih _ rfl]
        simp [vtxRuns, hv]
      · rw [stepRecord_flush s w wN false h (Or.inr hv), ih _ rfl]
        simp [vtxRuns, hv]

theorem vtxRuns_eq_dedup : ∀ l : List Nat, l.Chain' (· ≤ ·) → vtxRuns l = l.dedup := by
  intro l
  induction l with
  | nil => intro _; simp [vtxRuns]
  | cons v rest ih =>
    intro h
    cases rest with
    | nil => simp [vtxRuns]
    | cons vN t =>
      have hch : (vN :: t).Chain' (· ≤ ·) := h.tail
      have hvN : v ≤ vN := (List.chain'_cons.mp h).1
      by_cases hv : v = vN
      · subst hv
        rw [List.dedup_cons_of_mem (List.mem_cons_self v t)]
        show (if v = v then ([] : List Nat) else [v]) ++ vtxRuns (v :: t) = _
        rw [if_pos rfl, List.nil_append]
        exact ih hch
      · have hpw : (vN :: t).Pairwise (· ≤ ·) := List.chain'_iff_pairwise.mp hch
        have hnm : v ∉ vN :: t := by
          intro hm
          rcases List.mem_cons.mp hm with h1 | h1
          · exact hv h1
          · have : vN ≤ v := (List.pairwise_cons.mp hpw).1 v h1
            have : v = vN := by omega
            exact hv this
        rw [List.dedup_cons_of_not_mem hnm]
        show (if v = vN then ([] : List Nat) else [v]) ++ vtxRuns (vN :: t) = _
        rw [if_neg hv, ih hch]
        rfl

/-- C2 (confirmed): for every well-formed record stream the merging loop
flushes exactly one RangeCommand per distinct vertex — gaps in influence
indices are absorbed as explicit zeros instead of ending the run, and a run is
flushed only on a vertex change or at the end of the records — and the spec's
example (vertex 5 at influence indices 0, 1, 3 with weights 0.2, 0.3, 0.5)
yields exactly one RangeCommand covering [0, 3] with weight buffer
[0.2, 0.3, 0, 0.5]. -/
theorem C2_one_command_per_vertex :
    (∀ rs : List Record, wellFormed rs →
      (decode rs).map (·.vertex) = (rs.map (·.vertex)).dedup) ∧
    decode gapExample = [⟨5, 0, 3, [mkRat 1 5, mkRat 3 10, 0, mkRat 1 2], 4⟩] := by
  constructor
  · intro rs hwf
    have h1 := runDecode_out_map rs initState rfl
    have h2 : (rs.map (·.vertex)).Chain' (· ≤ ·) := by
      rw [List.chain'_map]
      exact hwf.imp (fun a b hab => by rcases hab with h | ⟨h, _⟩ <;> omega)
    rw [decode, h1, vtxRuns_eq_dedup _ h2]
    simp [initState]
  · decide

/-- Witness for C2 at the spec's gap example. -/
theorem C2_one_command_per_vertex_witness :
    (decode gapExample).map (·.vertex) = (gapExample.map (·.vertex)).dedup :=
  C2_one_command_per_vertex.1 gapExample (by decide)

-- --------------------------------------------------------------------------
-- C3: reversed influence order
-- --------------------------------------------------------------------------

/-- C3 (confirmed): for a header whose tokens are N influence names followed
by one target name, the reverse-order transform yields the influences in
reversed order with the target unchanged in the last slot; in particular
tokens `A B C shapeX` become `C B A shapeX`. -/
theorem C3_reverse_header :
    (∀ (infls : List String) (target : String),
      reverseHeaderTokens (infls ++ [target]) = infls.reverse ++ [target]) ∧
    reverseHeaderTokens ["A", "B", "C", "shapeX"] = ["C", "B", "A", "shapeX"] := by
  constructor
  · intro infls target
    unfold reverseHeaderTokens
    rw [List.reverse_append, List.reverse_singleton]
    simp
  · decide

-- --------------------------------------------------------------------------
-- C5: no ordering validation
-- --------------------------------------------------------------------------

theorem vtxRuns_ne_nil : ∀ l : List Nat, l ≠ [] → vtxRuns l ≠ [] := by
  intro l
  induction l with
  | nil => intro h; exact absurd rfl h
  | cons v rest ih =>
    intro _
    cases rest with
    | nil => simp [vtxRuns]
    | cons vN t =>
      show (if v = vN then ([] : List Nat) else [v]) ++ vtxRuns (vN :: t) ≠ []
      by_cases hv : v = vN
      · rw [if_pos hv, List.nil_append]
        exact ih (by simp)
      · rw [if_neg hv]
        simp

/-- C5 counterexample: on a record stream that is not strictly ascending the
merging loop does not reject; it still emits a RangeCommand (here a malformed
one whose end index 0 is below its start index 1). -/
theorem C5_counterexample :
    ¬wellFormed outOfOrderExample ∧
    decode outOfOrderExample = [⟨0, 1, 0, [mkRat 1 2, mkRat 1 2], 2⟩] := by decide

/-- C5 (corrected): readWeights performs no ordering validation at all.  For
every nonempty record stream — strictly ascending or not — the merging loop
runs to completion and emits at least one RangeCommand; no format error
exists in the code. -/
theorem C5_no_ordering_validation (rs : List Record) (h : rs ≠ []) :
    decode rs ≠ [] := by
  intro hdec
  have h1 := runDecode_out_map rs initState rfl
  have h2 : (runDecode initState rs).out = [] := hdec
  rw [h2] at h1
  have h3 : vtxRuns (rs.map (·.vertex)) = [] := by
    simpa [initState] using h1.symm
  exact vtxRuns_ne_nil (rs.map (·.vertex)) (by simpa using h) h3

/-- Witness for C5 at the out-of-order stream. -/
theorem C5_no_ordering_validation_witness : decode outOfOrderExample ≠ [] :=
  C5_no_ordering_validation outOfOrderExample (by decide)

-- --------------------------------------------------------------------------
-- C6: already bound
-- --------------------------------------------------------------------------

/-- C6 (confirmed): when the target shape is already bound (a skinCluster is
found in its history) and the pre-flight selection succeeded, readWeights
fails with the already-bound error, and the only collaborator call performed
before failing is the (non-mutating) selection: no binding creation, rename,
normalization change, prune, presize or weight application. -/
theorem C6_already_bound (f : ParsedFile) (ro : Bool) (nw : Int) :
    (readWeightsModel f ro true true true nw).1 = .errAlreadyBound ∧
    (readWeightsModel f ro true true true nw).2 =
      [.select (headerObjects f.headerLine ro)] ∧
    ((readWeightsModel f ro true true true nw).2.all fun e => !e.mutating) = true := by
  refine ⟨?_, ?_, ?_⟩ <;> simp [readWeightsModel, Effect.mutating]

-- --------------------------------------------------------------------------
-- C8: exclusive per-influence export
-- --------------------------------------------------------------------------

/-- C8 counterexample: the exclusive export writes a `"<vertexIndex> <weight>"`
line even for a vertex whose weight for the influence is zero. -/
theorem C8_counterexample :
    (0, (0 : ℚ)) ∈ exclusiveLines 1 (fun _ _ => 0) 0 ∧ ¬(0 < (0 : ℚ)) := by decide

theorem geoLoop_eq_map (w : Nat → Nat → ℚ) (j : Nat) :
    ∀ (V i : Nat), geoLoop w j i V = (List.range V).map fun k => (i + k, w (i + k) j) := by
  intro V
  induction V with
  | zero => intro i; rfl
  | succ n ih =>
    intro i
    rw [show geoLoop w j i (n + 1) = (i, w i j) :: geoLoop w j (i + 1) n from rfl, ih]
    rw [List.range_succ_eq_map, List.map_cons, List.map_map]
    refine congrArg₂ _ (by simp) (List.map_congr_left fun k _ => ?_)
    have : i + 1 + k = i + (k + 1) := by omega
    simp [Function.comp, this]

/-- C8 (corrected): in exclusive mode the encoder writes, for each influence
index `j`, a separate file named `<fileName>/<skinClusterNode>/<influence>.bsw`
containing one line `"<vertexIndex> <weight>"` for EVERY vertex — the weight
as stored (after forced normalization), including zero weights; no weight>0
filter exists in this code path. -/
theorem C8_exclusive_every_vertex (V I : Nat) (fileName node : String)
    (nm : Nat → String) (w : Nat → Nat → ℚ) :
    exclusiveExport V I fileName node nm w =
      (List.range I).map fun j =>
        (fileName ++ "/" ++ node ++ "/" ++ nm j ++ ".bsw",
          (List.range V).map fun v => (v, w v j)) := by
  unfold exclusiveExport exclusivePath exclusiveLines
  refine List.map_congr_left fun j _ => ?_
  rw [geoLoop_eq_map]
  simp

-- --------------------------------------------------------------------------
-- C9: silent return on selection failure
-- --------------------------------------------------------------------------

/-- C9 counterexample: when the pre-flight selection of the stored names
fails, readWeights returns `None` silently — the result is the bare
`return()` of the except-branch, not a reported error. -/
theorem C9_counterexample :
    readWeightsModel mismatchFile false true false false 1 =
      (RWResult.silentReturn, []) ∧
    RWResult.silentReturn ≠ RWResult.errFile ∧
    RWResult.silentReturn ≠ RWResult.errAlreadyBound := by
  refine ⟨rfl, by decide, by decide⟩

/-- C9 (corrected): a failing pre-flight selection makes readWeights close the
file and return silently (no error message, result `None` rather than an
error code); it performs no collaborator call at all on the destination. -/
theorem C9_silent_return (f : ParsedFile) (ro bound : Bool) (nw : Int) :
    readWeightsModel f ro true false bound nw = (.silentReturn, []) := by
  simp [readWeightsModel]

-- --------------------------------------------------------------------------
-- C10: argument validation in doIt
-- --------------------------------------------------------------------------

/-- C10 counterexample: an invocation with the help flag set and the file
flag absent shows the help text and reports no error — the help check
short-circuits before the file-flag check. -/
theorem C10_counterexample :
    helpInvocation.fileSet = false ∧
    doItModel helpInvocation = .showHelp ∧
    DoItAction.showHelp ≠ DoItAction.reportError := by decide

/-- C10 (corrected): unless the help flag is set (help short-circuits first
and reports no error), an invocation with the file flag absent, an empty file
name, or a mode argument outside [0,1] reports an error and calls neither
writeWeights nor readWeights. -/
theorem C10_argument_validation (a : CmdArgs) (hh : a.helpSet = false)
    (hc : a.fileSet = false ∨ a.fileVal = "" ∨
      (a.modeSet = true ∧ (a.modeVal < 0 ∨ 1 < a.modeVal))) :
    doItModel a = .reportError ∧ doItModel a ≠ .runWrite ∧ doItModel a ≠ .runRead := by
  have hmain : doItModel a = .reportError := by
    rcases hc with h | h | ⟨hm, hr⟩
    · simp [doItModel, hh, h]
    · simp [doItModel, hh, h]
    · simp [doItModel, hh, hm, hr]
  exact ⟨hmain, by rw [hmain]; decide, by rw [hmain]; decide⟩

/-- Witness for C10: file flag absent, help flag not set. -/
theorem C10_argument_validation_witness :
    doItModel missingFileInvocation = .reportError ∧
    doItModel missingFileInvocation ≠ .runWrite ∧
    doItModel missingFileInvocation ≠ .runRead :=
  C10_argument_validation missingFileInvocation rfl (Or.inl rfl)

-- --------------------------------------------------------------------------
-- C7: malformed record lines
-- --------------------------------------------------------------------------

theorem runDecodeRaw_abort : ∀ (ls : List (Option Record)) (s : DState),
    none ∈ ls → (runDecodeRaw s ls).2 = false := by
  intro ls
  induction ls with
  | nil => intro s h; cases h
  | cons l rest ih =>
    intro s h
    cases l with
    | none => rfl
    | some w =>
      have hrest : none ∈ rest := by
        rcases List.mem_cons.mp h with h1 | h1
        · cases h1
        · exact h1
      cases rest with
      | nil => cases hrest
      | cons l' t =>
        cases l' with
        | none => rfl
        | some wN =>
          show (runDecodeRaw (stepRecord s w wN false) (some wN :: t)).2 = false
          exact ih _ hrest

/-- C7 counterexample: with a malformed third record line, readWeights raises
out of the loop (no error handling) — yet the RangeCommand flushed for vertex
0 before the malformed line was reached has already been applied to the
destination.  The abort is not atomic. -/
theorem C7_counterexample :
    (readWeightsModel partialFile false true true false 1).1 = .exn ∧
    Effect.applyRange ⟨0, 0, 0, [mkRat 1 2], 1⟩ ∈
      (readWeightsModel partialFile false true true false 1).2 := by
  constructor
  · rfl
  · simp [readWeightsModel, partialFile, runDecodeRaw, stepRecord, runUpdate, initState]

/-- C7 (corrected): a malformed record line always aborts the decode — the
uncaught `eval` exception stops the loop, so the overall result is a failure,
never a completed import — but the abort is not atomic: RangeCommands already
flushed for earlier vertices remain applied (see the counterexample). -/
theorem C7_malformed_aborts (f : ParsedFile) (ro : Bool) (nw : Int)
    (h : none ∈ f.records) :
    (readWeightsModel f ro true true false nw).1 = .exn := by
  unfold readWeightsModel
  simp only [Bool.true_eq_false, if_false, Bool.false_eq_true, if_neg]
  cases hl : f.records.getLast? with
  | none => simp
  | some o =>
    cases o with
    | none => simp
    | some r =>
      have habort : (runDecodeRaw initState f.records).2 = false :=
        runDecodeRaw_abort f.records initState h
      simp [habort]

/-- Witness for C7 at the concrete malformed file. -/
theorem C7_malformed_aborts_witness :
    (readWeightsModel partialFile false true true false 1).1 = .exn :=
  C7_malformed_aborts partialFile false 1 (by decide)

-- --------------------------------------------------------------------------
-- group processing for the round trip (C1)
-- --------------------------------------------------------------------------

theorem accRun_nil (e : Int) (b : List ℚ) : accRun e b [] = (e, b) := rfl

theorem accRun_cons (e : Int) (b : List ℚ) (w : Record) (t : List Record) :
    accRun e b (w :: t) =
      accRun (w.infl : Int) (b ++ gapZeros e w.infl ++ [w.weight]) t := rfl

theorem length_gapZeros (e : Int) (j : Nat) :
    (gapZeros e j).length = ((j : Int) - (e + 1)).toNat := by
  simp [gapZeros]

theorem runDecode_open :
    ∀ (t : List Record) (w : Record) (rest : List Record) (s : DState),
      s.writeData = false → ¬s.inflStart = -1 →
      (∀ r ∈ t, r.vertex = w.vertex) →
      (∀ u, rest.head? = some u → u.vertex ≠ w.vertex) →
      s.setCount = s.buf.length →
      runDecode s (w :: (t ++ rest)) =
        runDecode
          ⟨[], -1, -1, 0, false,
            s.out ++ [⟨w.vertex, s.inflStart, (accRun s.inflEnd s.buf (w :: t)).1,
              (accRun s.inflEnd s.buf (w :: t)).2,
              (accRun s.inflEnd s.buf (w :: t)).2.length⟩]⟩ rest := by
  intro t
  induction t with
  | nil =>
    intro w rest s hwd hst _ hhead hcnt
    rw [List.nil_append]
    have hu := runUpdate_open s w.infl hst
    have hcmd : (⟨w.vertex, (runUpdate s w.infl).start, (runUpdate s w.infl).stop,
        (runUpdate s w.infl).buf ++ [w.weight], (runUpdate s w.infl).cnt + 1⟩ : RangeCommand) =
        ⟨w.vertex, s.inflStart, (accRun s.inflEnd s.buf [w]).1,
          (accRun s.inflEnd s.buf [w]).2, (accRun s.inflEnd s.buf [w]).2.length⟩ := by
      rw [hu, accRun_cons, accRun_nil]
      simp [length_gapZeros, hcnt]
      omega
    cases rest with
    | nil =>
      rw [runDecode_single, stepRecord_flush s w w true hwd (Or.inl rfl), hcmd]
      rfl
    | cons u r =>
      have hne : w.vertex ≠ u.vertex := (hhead u rfl).symm
      rw [runDecode_cons_cons, stepRecord_flush s w u false hwd (Or.inr hne), hcmd]
  | cons r t' ih =>
    intro w rest s hwd hst hvtx hhead hcnt
    have hrv : r.vertex = w.vertex := hvtx r (List.mem_cons_self r t')
    rw [List.cons_append, runDecode_cons_cons,
      stepRecord_noflush s w r hwd hrv.symm, runUpdate_open s w.infl hst]
    have := ih r rest
      ⟨s.buf ++ gapZeros s.inflEnd w.infl ++ [w.weight], s.inflStart, (w.infl : Int),
        s.setCount + ((w.infl : Int) - (s.inflEnd + 1)).toNat + 1, false, s.out⟩
      rfl hst
      (fun x hx => (hvtx x (List.mem_cons_of_mem r hx)).trans hrv.symm)
      (fun u hu => by rw [hrv]; exact hhead u hu)
      (by simp [length_gapZeros, hcnt]; omega)
    rw [this]
    simp [accRun_cons, hrv]

theorem runDecode_group (w : Record) (t rest : List Record) (out : List RangeCommand)
    (hvtx : ∀ r ∈ t, r.vertex = w.vertex)
    (hhead : ∀ u, rest.head? = some u → u.vertex ≠ w.vertex) :
    runDecode ⟨[], -1, -1, 0, false, out⟩ (w :: (t ++ rest)) =
      runDecode ⟨[], -1, -1, 0, false, out ++ [groupCmd w t]⟩ rest := by
  cases t with
  | nil =>
    cases rest with
    | nil =>
      rw [List.nil_append, runDecode_single,
        stepRecord_flush _ w w true rfl (Or.inl rfl), runUpdate_fresh _ w.infl rfl]
      simp [groupCmd, accRun_nil]
    | cons u r =>
      have hne : w.vertex ≠ u.vertex := (hhead u rfl).symm
      rw [List.nil_append, runDecode_cons_cons,
        stepRecord_flush _ w u false rfl (Or.inr hne), runUpdate_fresh _ w.infl rfl]
      simp [groupCmd, accRun_nil]
  | cons r t' =>
    have hrv : r.vertex = w.vertex := hvtx r (List.mem_cons_self r t')
    rw [List.cons_append, runDecode_cons_cons,
      stepRecord_noflush _ w r rfl hrv.symm, runUpdate_fresh _ w.infl rfl]
    have hstart : ¬((w.infl : Int)) = -1 := by omega
    have hopen := runDecode_open t' r rest
      ⟨[w.weight], (w.infl : Int), (w.infl : Int), 1, false, out⟩
      rfl hstart
      (fun x hx => (hvtx x (List.mem_cons_of_mem r hx)).trans hrv.symm)
      (fun u hu => by rw [hrv]; exact hhead u hu)
      (by simp)
    simp only [List.nil_append, Nat.zero_add] at hopen ⊢
    rw [hopen]
    simp [groupCmd, accRun_cons, hrv]

theorem mem_recsFor (I : Nat) (nm : Nat → String) (w : Nat → Nat → ℚ) (v : Nat)
    (r : Record) (h : r ∈ recsFor I nm w v) : r.vertex = v := by
  rcases List.mem_filterMap.mp h with ⟨j, _, hsome⟩
  by_cases hw : 0 < w v j
  · rw [if_pos hw] at hsome
    cases hsome
    rfl
  · rw [if_neg hw] at hsome
    cases hsome

theorem runDecode_groups (I : Nat) (nm : Nat → String) (w : Nat → Nat → ℚ) :
    ∀ vs : List Nat, vs.Pairwise (· ≠ ·) → ∀ out : List RangeCommand,
      runDecode ⟨[], -1, -1, 0, false, out⟩ (vs.flatMap (recsFor I nm w)) =
        ⟨[], -1, -1, 0, false, out ++ vs.filterMap (cmdFor I nm w)⟩ := by
  intro vs
  induction vs with
  | nil => intro _ out; simp
  | cons v vs' ih =>
    intro hpw out
    have hne : ∀ x ∈ vs', v ≠ x := (List.pairwise_cons.mp hpw).1
    have hpw' := (List.pairwise_cons.mp hpw).2
    rw [List.flatMap_cons]
    cases hg : recsFor I nm w v with
    | nil =>
      have hc : cmdFor I nm w v = none := by unfold cmdFor; rw [hg]
      rw [List.nil_append, ih hpw' out, List.filterMap_cons_none hc]
    | cons rhd rtl =>
      have hc : cmdFor I nm w v = some (groupCmd rhd rtl) := by unfold cmdFor; rw [hg]
      have hhd : rhd.vertex = v :=
        mem_recsFor I nm w v rhd (by rw [hg]; exact List.mem_cons_self _ _)
      have hvtx : ∀ x ∈ rtl, x.vertex = rhd.vertex := by
        intro x hx
        have hx' : x ∈ recsFor I nm w v := by
          rw [hg]; exact List.mem_cons_of_mem _ hx
        rw [mem_recsFor I nm w v x hx', hhd]
      have hhead : ∀ u, (vs'.flatMap (recsFor I nm w)).head? = some u →
          u.vertex ≠ rhd.vertex := by
        intro u hu
        have hmem : u ∈ vs'.flatMap (recsFor I nm w) :=
          List.mem_of_mem_head? (Option.mem_def.mpr hu)
        rcases List.mem_flatMap.mp hmem with ⟨v', hv', hu'⟩
        rw [mem_recsFor I nm w v' u hu', hhd]
        exact fun hcc => hne v' hv' hcc.symm
      rw [List.cons_append,
        runDecode_group rhd rtl _ out hvtx hhead,
        ih hpw' (out ++ [groupCmd rhd rtl]),
        List.filterMap_cons_some hc]
      simp

theorem decode_writeRecords (V I : Nat) (nm : Nat → String) (w : Nat → Nat → ℚ) :
    decode (writeRecords V I nm w) = (List.range V).filterMap (cmdFor I nm w) := by
  unfold decode writeRecords
  have hpw : (List.range V).Pairwise (· ≠ ·) :=
    (List.pairwise_lt_range V).imp fun h => Nat.ne_of_lt h
  rw [show initState = ⟨[], -1, -1, 0, false, []⟩ from rfl,
    runDecode_groups I nm w (List.range V) hpw []]
  simp

-- --------------------------------------------------------------------------
-- buffer characterization for encoded groups
-- --------------------------------------------------------------------------

theorem filterMap_if_eq_map_filter {α β : Type} (p : α → Prop) [DecidablePred p]
    (f : α → β) :
    ∀ l : List α, (l.filterMap fun j => if p j then some (f j) else none) =
      (l.filter fun j => decide (p j)).map f := by
  intro l
  induction l with
  | nil => rfl
  | cons a t ih =>
    by_cases hp : p a <;>
      simp [List.filterMap_cons, List.filter_cons, hp, ih]

theorem recsFor_eq_map (I : Nat) (nm : Nat → String) (w : Nat → Nat → ℚ) (v : Nat) :
    recsFor I nm w v = (posIdx I w v).map fun j => ⟨v, nm j, j, w v j⟩ := by
  unfold recsFor posIdx
  exact filterMap_if_eq_map_filter _ _ _

theorem mem_posIdx (I : Nat) (w : Nat → Nat → ℚ) (v j : Nat) :
    j ∈ posIdx I w v ↔ j < I ∧ 0 < w v j := by
  simp [posIdx, List.mem_filter, List.mem_range]

theorem posIdx_pairwise (I : Nat) (w : Nat → Nat → ℚ) (v : Nat) :
    (posIdx I w v).Pairwise (· < ·) :=
  (List.pairwise_lt_range I).sublist (List.filter_sublist _)

theorem le_getLastD (js : List Nat) (j : Nat) (h : ∀ x ∈ js, j ≤ x) :
    j ≤ js.getLastD j := by
  rcases List.mem_cons.mp (List.getLastD_mem_cons js j) with h1 | h1
  · exact le_of_eq h1.symm
  · exact h _ h1

theorem mem_le_getLastD :
    ∀ (l : List Nat), l.Pairwise (· < ·) → ∀ (d x : Nat), x ∈ l → x ≤ l.getLastD d := by
  intro l
  induction l with
  | nil => intro _ d x hx; cases hx
  | cons a t ih =>
    intro hp d x hx
    rw [List.getLastD_cons]
    rcases List.mem_cons.mp hx with h1 | h1
    · subst h1
      exact le_getLastD t x fun y hy => Nat.le_of_lt ((List.pairwise_cons.mp hp).1 y hy)
    · exact ih (List.pairwise_cons.mp hp).2 a x h1

theorem accRun_map (v : Nat) (nm : Nat → String) (f : Nat → ℚ) :
    ∀ (js : List Nat) (e : Nat) (b : List ℚ),
      (∀ x ∈ js, e < x) → js.Chain' (· < ·) →
      accRun (e : Int) b (js.map fun j => ⟨v, nm j, j, f j⟩) =
        (((js.getLastD e : Nat) : Int),
          b ++ (List.range (js.getLastD e - e)).map fun k =>
            if e + 1 + k ∈ js then f (e + 1 + k) else 0) := by
  intro js
  induction js with
  | nil => intro e b _ _; simp [accRun_nil]
  | cons j js' ih =>
    intro e b hgt hch
    have hej : e < j := hgt j (List.mem_cons_self j js')
    have hgt' : ∀ x ∈ js', j < x := by
      have hpw : (j :: js').Pairwise (· < ·) := List.chain'_iff_pairwise.mp hch
      exact (List.pairwise_cons.mp hpw).1
    have hch' : js'.Chain' (· < ·) := hch.tail
    have hL : j ≤ js'.getLastD j := le_getLastD js' j fun x hx => Nat.le_of_lt (hgt' x hx)
    rw [List.map_cons, accRun_cons, List.getLastD_cons]
    have hgap : gapZeros (e : Int) j = List.replicate (j - e - 1) 0 := by
      unfold gapZeros
      congr 1
      omega
    rw [hgap]
    rw [show ((⟨v, nm j, j, f j⟩ : Record).infl : Int) = ((j : Nat) : Int) from rfl]
    rw [show (⟨v, nm j, j, f j⟩ : Record).weight = f j from rfl]
    rw [ih j (b ++ List.replicate (j - e - 1) 0 ++ [f j]) hgt' hch']
    refine congrArg _ ?_
    rw [show js'.getLastD j - e = (j - e) + (js'.getLastD j - j) from by omega]
    rw [List.range_add, List.map_append, List.map_map]
    have hfirst : ((List.range (j - e)).map fun k =>
        if e + 1 + k ∈ j :: js' then f (e + 1 + k) else 0) =
        List.replicate (j - e - 1) 0 ++ [f j] := by
      rw [show j - e = (j - e - 1) + 1 from by omega, List.range_succ, List.map_append]
      have h1 : ((List.range (j - e - 1)).map fun k =>
          if e + 1 + k ∈ j :: js' then f (e + 1 + k) else 0) =
          List.replicate (j - e - 1) 0 := by
        rw [List.map_congr_left (g := fun _ => (0 : ℚ)) ?_]
        · rw [List.map_const', List.length_range]
        · intro k hk
          have hklt : k < j - e - 1 := List.mem_range.mp hk
          have hnmem : e + 1 + k ∉ j :: js' := by
            intro hm
            rcases List.mem_cons.mp hm with h2 | h2
            · omega
            · have := hgt' _ h2
              omega
          rw [if_neg hnmem]
      have h2 : ((List.map fun k => if e + 1 + k ∈ j :: js' then f (e + 1 + k) else 0)
          [j - e - 1]) = [f j] := by
        have heq : e + 1 + (j - e - 1) = j := by omega
        simp only [List.map_cons, List.map_nil, heq]
        rw [if_pos (List.mem_cons_self j js')]
      rw [h1, h2]
      have hlen : j - e - 1 + 1 - 1 = j - e - 1 := by omega
      rw [hlen]
    have hsecond : ((List.range (js'.getLastD j - j)).map
        ((fun k => if e + 1 + k ∈ j :: js' then f (e + 1 + k) else 0) ∘ (j - e + ·))) =
        (List.range (js'.getLastD j - j)).map fun k =>
          if j + 1 + k ∈ js' then f (j + 1 + k) else 0 := by
      refine List.map_congr_left fun k _ => ?_
      have heq : e + 1 + (j - e + k) = j + 1 + k := by omega
      simp only [Function.comp_apply, heq]
      have hiff : (j + 1 + k ∈ j :: js') ↔ (j + 1 + k ∈ js') := by
        rw [List.mem_cons]
        constructor
        · intro h
          rcases h with h | h
          · omega
          · exact h
        · exact Or.inr
      by_cases hmem : j + 1 + k ∈ js'
      · rw [if_pos (hiff.mpr hmem), if_pos hmem]
      · rw [if_neg (fun hc => hmem (hiff.mp hc)), if_neg hmem]
    rw [hfirst, hsecond]
    simp [List.append_assoc]

theorem cmdFor_none (I : Nat) (nm : Nat → String) (w : Nat → Nat → ℚ) (v : Nat)
    (hps : posIdx I w v = []) : cmdFor I nm w v = none := by
  unfold cmdFor
  rw [recsFor_eq_map, hps, List.map_nil]

theorem cmdFor_eq (I : Nat) (nm : Nat → String) (w : Nat → Nat → ℚ) (v : Nat)
    (hnn : ∀ j, 0 ≤ w v j) (j0 : Nat) (js : List Nat)
    (hps : posIdx I w v = j0 :: js) :
    cmdFor I nm w v = some ⟨v, (j0 : Int), ((js.getLastD j0 : Nat) : Int),
      (List.range (js.getLastD j0 - j0 + 1)).map (fun k => w v (j0 + k)),
      js.getLastD j0 - j0 + 1⟩ := by
  have hpw : (j0 :: js).Pairwise (· < ·) := by
    have := posIdx_pairwise I w v
    rwa [hps] at this
  have hgt : ∀ x ∈ js, j0 < x := (List.pairwise_cons.mp hpw).1
  have hch : js.Chain' (· < ·) := List.chain'_iff_pairwise.mpr (List.pairwise_cons.mp hpw).2
  have hLmem : js.getLastD j0 ∈ posIdx I w v := by
    rw [hps]
    exact List.getLastD_mem_cons js j0
  have hLI : js.getLastD j0 < I := ((mem_posIdx I w v _).mp hLmem).1
  have hLge : j0 ≤ js.getLastD j0 := le_getLastD js j0 fun x hx => Nat.le_of_lt (hgt x hx)
  unfold cmdFor
  rw [recsFor_eq_map, hps, List.map_cons]
  have hacc := accRun_map v nm (w v) js j0 [w v j0] hgt hch
  dsimp only [groupCmd]
  rw [hacc]
  dsimp only
  have hbuf : ([w v j0] ++ (List.range (js.getLastD j0 - j0)).map fun k =>
      if j0 + 1 + k ∈ js then w v (j0 + 1 + k) else 0) =
      (List.range (js.getLastD j0 - j0 + 1)).map fun k => w v (j0 + k) := by
    have hmid : ((List.range (js.getLastD j0 - j0)).map fun k =>
        if j0 + 1 + k ∈ js then w v (j0 + 1 + k) else 0) =
        (List.range (js.getLastD j0 - j0)).map fun k => w v (j0 + 1 + k) := by
      refine List.map_congr_left fun k hk => ?_
      have hklt : k < js.getLastD j0 - j0 := List.mem_range.mp hk
      have hkI : j0 + 1 + k < I := by omega
      by_cases hmem : j0 + 1 + k ∈ js
      · rw [if_pos hmem]
      · rw [if_neg hmem]
        have hnp : ¬(0 < w v (j0 + 1 + k)) := by
          intro hpos
          have : j0 + 1 + k ∈ posIdx I w v := (mem_posIdx I w v _).mpr ⟨hkI, hpos⟩
          rw [hps] at this
          rcases List.mem_cons.mp this with h1 | h1
          · omega
          · exact hmem h1
        have := hnn (j0 + 1 + k)
        have : w v (j0 + 1 + k) = 0 := by
          rcases lt_or_eq_of_le this with h1 | h1
          · exact absurd h1 hnp
          · exact h1.symm
        rw [this]
    rw [hmid, List.range_succ_eq_map, List.map_cons, List.map_map,
      List.singleton_append]
    refine congrArg₂ List.cons (by rw [Nat.add_zero]) (List.map_congr_left fun k _ => ?_)
    have h3 : j0 + (k + 1) = j0 + 1 + k := by omega
    simp [Function.comp, h3]
  rw [hbuf]
  have hlen : ((List.range (js.getLastD j0 - j0 + 1)).map fun k => w v (j0 + k)).length =
      js.getLastD j0 - j0 + 1 := by
    rw [List.length_map, List.length_range]
  rw [hlen]

/-- C1 (confirmed): for every weight table whose stored weights are all
nonnegative (so entries are either absent/zero or strictly positive, as
produced by a skinCluster), decoding the encoded record stream covers, among
the nonzero entries, exactly the strictly positive entries of the table with
their exact weights: a nonzero triple (vertex, influence, weight) is covered
by the emitted RangeCommands iff it is a weight>0 entry of the table.
Zero-filled gap entries (weight 0) are excluded on both sides. -/
theorem C1_roundtrip (V I : Nat) (nm : Nat → String) (w : Nat → Nat → ℚ)
    (hnn : ∀ v j, 0 ≤ w v j) :
    ∀ (v j : Nat) (q : ℚ), q ≠ 0 →
      (Covers (decode (writeRecords V I nm w)) v j q ↔
        v < V ∧ j < I ∧ w v j = q ∧ 0 < q) := by
  intro v j q hq
  rw [show decode (writeRecords V I nm w) = (List.range V).filterMap (cmdFor I nm w)
    from decode_writeRecords V I nm w]
  constructor
  · rintro ⟨c, hc, hcv, k, hget, hidx⟩
    rcases List.mem_filterMap.mp hc with ⟨vx, hvx, hcmd⟩
    have hvV : vx < V := List.mem_range.mp hvx
    cases hps : posIdx I w vx with
    | nil =>
      rw [cmdFor_none I nm w vx hps] at hcmd
      cases hcmd
    | cons j0 js =>
      rw [cmdFor_eq I nm w vx (fun jj => hnn vx jj) j0 js hps] at hcmd
      cases hcmd
      have hvv : vx = v := hcv
      subst hvv
      have hpw : (j0 :: js).Pairwise (· < ·) := by
        have := posIdx_pairwise I w vx
        rwa [hps] at this
      have hLmem : js.getLastD j0 ∈ posIdx I w vx := by
        rw [hps]
        exact List.getLastD_mem_cons js j0
      have hLI : js.getLastD j0 < I := ((mem_posIdx I w vx _).mp hLmem).1
      have hj0L : j0 ≤ js.getLastD j0 :=
        le_getLastD js j0 fun x hx => Nat.le_of_lt ((List.pairwise_cons.mp hpw).1 x hx)
      rw [List.get?_map] at hget
      have hklt : k < js.getLastD j0 - j0 + 1 := by
        by_contra hk'
        rw [List.get?_eq_none.mpr (by rw [List.length_range]; omega)] at hget
        cases hget
      rw [List.get?_range hklt] at hget
      have hqw : q = w vx (j0 + k) := by
        cases hget
        rfl
      have hjk : j = j0 + k := by
        have : (j : Int) = (j0 : Int) + (k : Int) := hidx
        omega
      refine ⟨hvV, by omega, ?_, ?_⟩
      · rw [hjk, hqw]
      · have := hnn vx j
        rcases lt_or_eq_of_le this with h1 | h1
        · rwa [hjk, ← hqw] at h1
        · exact absurd (by rw [hjk, ← hqw] at h1; exact h1.symm) hq
  · rintro ⟨hvV, hjI, hwq, hq0⟩
    have hmem : j ∈ posIdx I w v :=
      (mem_posIdx I w v j).mpr ⟨hjI, by rw [hwq]; exact hq0⟩
    cases hps : posIdx I w v with
    | nil =>
      rw [hps] at hmem
      cases hmem
    | cons j0 js =>
      have hcmd := cmdFor_eq I nm w v (fun jj => hnn v jj) j0 js hps
      have hpw : (j0 :: js).Pairwise (· < ·) := by
        have := posIdx_pairwise I w v
        rwa [hps] at this
      have hj0j : j0 ≤ j := by
        rw [hps] at hmem
        rcases List.mem_cons.mp hmem with h1 | h1
        · omega
        · exact Nat.le_of_lt ((List.pairwise_cons.mp hpw).1 j h1)
      have hjL : j ≤ js.getLastD j0 := by
        have := mem_le_getLastD (j0 :: js) hpw 0 j (by rw [← hps]; exact hmem)
        rwa [List.getLastD_cons] at this
      refine ⟨_, List.mem_filterMap.mpr ⟨v, List.mem_range.mpr hvV, hcmd⟩, rfl,
        j - j0, ?_, ?_⟩
      · rw [List.get?_map, List.get?_range (by omega)]
        simp only [Option.map_some']
        have h4 : j0 + (j - j0) = j := by omega
        rw [h4, hwq]
      · show (j : Int) = (j0 : Int) + ((j - j0 : Nat) : Int)
        omega

/-- Witness for C1 at a concrete 2-vertex, 2-influence table. -/
theorem C1_roundtrip_witness :
    Covers (decode (writeRecords 2 2 (fun _ => "joint")
        (fun v jj => if v = jj then 1 else 0))) 1 1 1 ↔
      1 < 2 ∧ 1 < 2 ∧ (if 1 = 1 then (1 : ℚ) else 0) = 1 ∧ 0 < (1 : ℚ) :=
  C1_roundtrip 2 2 (fun _ => "joint") (fun v jj => if v = jj then 1 else 0)
    (fun v jj => by dsimp only; split <;> norm_num) 1 1 1 one_ne_zero

-- --------------------------------------------------------------------------
-- C4: encoder sparsity and ordering
-- --------------------------------------------------------------------------

theorem pairwise_flatMap_recsFor (I : Nat) (nm : Nat → String) (w : Nat → Nat → ℚ) :
    ∀ vs : List Nat, vs.Pairwise (· < ·) →
      (vs.flatMap (recsFor I nm w)).Pairwise recLt := by
  intro vs
  induction vs with
  | nil => intro _; simp
  | cons v vs' ih =>
    intro hpw
    rw [List.flatMap_cons, List.pairwise_append]
    refine ⟨?_, ih (List.pairwise_cons.mp hpw).2, ?_⟩
    · rw [recsFor_eq_map]
      exact (posIdx_pairwise I w v).map _ fun a b hab => Or.inr ⟨rfl, hab⟩
    · intro r hr rx hrx
      have h1 : r.vertex = v := mem_recsFor I nm w v r hr
      rcases List.mem_flatMap.mp hrx with ⟨vx, hvx, hr2⟩
      have h2 : rx.vertex = vx := mem_recsFor I nm w vx rx hr2
      have h3 : v < vx := (List.pairwise_cons.mp hpw).1 vx hvx
      exact Or.inl (by rw [h1, h2]; exact h3)

/-- C4 (confirmed): writeWeights emits exactly one record per
(vertex, influence) pair with weight > 0 — membership characterization plus no
duplicate (vertex, influence) pairs — no record for weight ≤ 0, and the
records are in ascending vertex order with ascending influence index within
each vertex. -/
theorem C4_sparsity_order (V I : Nat) (nm : Nat → String) (w : Nat → Nat → ℚ) :
    (∀ r : Record, r ∈ writeRecords V I nm w ↔
      ∃ v, v < V ∧ ∃ j, j < I ∧ 0 < w v j ∧ r = ⟨v, nm j, j, w v j⟩) ∧
    ((writeRecords V I nm w).map fun r => (r.vertex, r.infl)).Nodup ∧
    (writeRecords V I nm w).Pairwise recLt := by
  have hpl : (writeRecords V I nm w).Pairwise recLt :=
    pairwise_flatMap_recsFor I nm w (List.range V) (List.pairwise_lt_range V)
  refine ⟨?_, ?_, hpl⟩
  · intro r
    constructor
    · intro h
      rcases List.mem_flatMap.mp h with ⟨v, hv, hr⟩
      rw [recsFor_eq_map] at hr
      rcases List.mem_map.mp hr with ⟨j, hj, hrj⟩
      rcases (mem_posIdx I w v j).mp hj with ⟨hjI, hpos⟩
      exact ⟨v, List.mem_range.mp hv, j, hjI, hpos, hrj.symm⟩
    · rintro ⟨v, hv, j, hjI, hpos, hr⟩
      refine List.mem_flatMap.mpr ⟨v, List.mem_range.mpr hv, ?_⟩
      rw [recsFor_eq_map]
      exact List.mem_map.mpr ⟨j, (mem_posIdx I w v j).mpr ⟨hjI, hpos⟩, hr.symm⟩
  · refine hpl.map _ fun a b hab => ?_
    intro hc
    rw [Prod.mk.injEq] at hc
    rcases hab with h | ⟨h1, h2⟩ <;> omega

/-- Witness for C4's membership characterization at a one-entry table. -/
theorem C4_sparsity_order_witness :
    (⟨0, "J1", 0, 1⟩ : Record) ∈ writeRecords 1 1 (fun _ => "J1") (fun _ _ => 1) ↔
      ∃ v, v < 1 ∧ ∃ j, j < 1 ∧ (0 : ℚ) < 1 ∧
        (⟨0, "J1", 0, 1⟩ : Record) = ⟨v, "J1", j, 1⟩ :=
  (C4_sparsity_order 1 1 (fun _ => "J1") (fun _ _ => 1)).1 ⟨0, "J1", 0, 1⟩
